import Mathlib

/-!
Shallow embedding of the nat_tunnel repository (src/client.ts, src/index.ts,
src/address.js) and proofs about its framing, multiplexing, queueing,
rendezvous-pair and retry logic.

Byte sequences (Node `Buffer`s and the byte content of strings) are modelled
as `List Nat`.  JavaScript numbers obtained from `parseInt` are modelled as
`Option Int`: `none` stands for `NaN`.  The event-driven parts of the code
are modelled as explicit state machines whose steps are translated from the
corresponding handlers.
-/

/-- Bytes of one multiplex message: channel-id bytes and data bytes, as the
receiver emits them in a `multiplex-data` event. -/
abbrev MuxMsg := List Nat × List Nat

/-- ASCII decimal digit test on a byte value (48 = 0x30 is the digit zero). -/
def isDigitB (b : Nat) : Bool := decide (48 ≤ b) && decide (b ≤ 57)

/-- ASCII whitespace test on a byte value, as skipped by JavaScript
`parseInt` before the number proper (space, tab, LF, VT, FF, CR). -/
def isSpaceB (b : Nat) : Bool :=
  b == 32 || b == 9 || b == 10 || b == 11 || b == 12 || b == 13

/-- Numeric value of a list of ASCII decimal digit bytes, most significant
digit first. -/
def parseDigits (l : List Nat) : Nat :=
  l.foldl (fun acc d => acc * 10 + (d - 48)) 0

/-- Value of the longest leading run of decimal digits; `none` when there is
no leading digit (the `NaN` case of `parseInt`). -/
def parseDigitsOpt (l : List Nat) : Option Nat :=
  let ds := l.takeWhile isDigitB
  if ds.isEmpty then none else some (parseDigits ds)

/-- JavaScript `parseInt(s, 10)` on the bytes of `s`: skip leading
whitespace, allow one sign character, then read the longest digit run;
`none` models a `NaN` result.  Digits, sign and whitespace are single-byte
ASCII, so working on bytes agrees with working on the decoded string. -/
def parseIntJS (l : List Nat) : Option Int :=
  match l.dropWhile isSpaceB with
  | [] => none
  | c :: rest =>
    if c = 45 then (parseDigitsOpt rest).map (fun n => -(n : Int))
    else if c = 43 then (parseDigitsOpt rest).map (fun n => (n : Int))
    else (parseDigitsOpt (c :: rest)).map (fun n => (n : Int))

/-- Fuel-driven helper for the decimal rendering of a natural number
(`Number.prototype.toString`), producing ASCII digit bytes, most
significant first.  Fuel `n + 1` always suffices. -/
def natDigitsAux : Nat → Nat → List Nat
  | 0, _ => []
  | fuel + 1, n =>
    if n < 10 then [48 + n] else natDigitsAux fuel (n / 10) ++ [48 + n % 10]

/-- ASCII decimal digit bytes of `n`, most significant first, as
`n.toString()` yields in the source. -/
def natDigits (n : Nat) : List Nat := natDigitsAux (n + 1) n

/-- `rjust` from src/client.ts lines 65-76: left-pad `stringToPad` to
`targetLength` with bytes cycled from `paddingString`; the source throws
when the string is already longer than the target, modelled as `none`. -/
def rjust (stringToPad : List Nat) (targetLength : Nat) (paddingString : List Nat) :
    Option (List Nat) :=
  if targetLength < stringToPad.length then none
  else
    some (((List.range (targetLength - stringToPad.length)).map
      (fun i => paddingString.getD (i % paddingString.length) 0)) ++ stringToPad)

/-- The constant `maxBufferSizeDigits` of `MultiplexSocket`. -/
def maxBufferSizeDigits : Nat := 14

/-- Wire bytes produced by the sending path of
`MultiplexSocket.multiplexWrite` (src/client.ts lines 152-172) for one
message: the payload is `channelId ++ data` and the write is
`rjust(payload.length, 14, '0') ++ payload`; `none` models the `rjust`
throw for payloads whose decimal length needs more than 14 digits. -/
def multiplexEncode (channelId data : List Nat) : Option (List Nat) :=
  let message := channelId ++ data
  (rjust (natDigits message.length) maxBufferSizeDigits [48]).map
    (fun len => len ++ message)

/-- Node `buffer.subarray(s, e)` on our byte lists: integer arguments are
clamped to `[0, length]`, negative values count from the end, and the
result is the bytes from the clamped start to the clamped end. -/
def subarrayJS (buf : List Nat) (s e : Int) : List Nat :=
  let len : Int := buf.length
  let s' : Int := if s < 0 then max (len + s) 0 else min s len
  let e' : Int := if e < 0 then max (len + e) 0 else min e len
  (buf.take e'.toNat).drop s'.toNat

/-- Fuel-driven body of `MultiplexSocket.emitMessagesFromBuffer`
(src/client.ts lines 132-150).  Returns the list of emitted
`multiplex-data` events and the remaining buffer.  One fuel unit is spent
per parsed frame; since every parsed frame consumes at least 14 bytes,
fuel `buffer.length` always suffices.  The `none` branch of the parsed
length corresponds to `parseInt` returning `NaN`, where the source
computes an empty `message`, fails the `message.length === length`
comparison (`0 === NaN` is false) and returns the buffer unchanged. -/
def emitAux : Nat → List Nat → List MuxMsg × List Nat
  | 0, buffer => ([], buffer)
  | fuel + 1, buffer =>
    if buffer.length = 0 then ([], buffer)
    else if (subarrayJS buffer 0 14).length ≠ 14 then ([], buffer)
    else
      match parseIntJS (subarrayJS buffer 0 14) with
      | none => ([], buffer)
      | some length =>
        let message := subarrayJS buffer 14 (length + 14)
        if (message.length : Int) = length then
          let res := emitAux fuel (subarrayJS buffer (14 + length) buffer.length)
          ((subarrayJS message 0 36, subarrayJS message 36 message.length) :: res.1,
            res.2)
        else ([], buffer)

/-- `MultiplexSocket.emitMessagesFromBuffer`: parse as many complete frames
as possible from the front of the buffer, emitting one `multiplex-data`
event per frame, and return the unconsumed remainder. -/
def emitMessagesFromBuffer (buffer : List Nat) : List MuxMsg × List Nat :=
  emitAux buffer.length buffer

/-- A single iteration of `emitMessagesFromBuffer`: `none` when the source
returns the buffer unchanged without emitting (empty buffer, short header,
unparseable header, or incomplete payload); `some (event, rest)` when one
complete frame is emitted and `rest` is the buffer passed to the recursive
call. -/
def parseStep (buffer : List Nat) : Option (MuxMsg × List Nat) :=
  if buffer.length = 0 then none
  else if (subarrayJS buffer 0 14).length ≠ 14 then none
  else
    match parseIntJS (subarrayJS buffer 0 14) with
    | none => none
    | some length =>
      let message := subarrayJS buffer 14 (length + 14)
      if (message.length : Int) = length then
        some ((subarrayJS message 0 36, subarrayJS message 36 message.length),
          subarrayJS buffer (14 + length) buffer.length)
      else none

/-- The wire frame of a message, defaulting to `[]` in the (excluded by
`ValidMsg`) case where `rjust` would throw. -/
def frameD (m : MuxMsg) : List Nat := (multiplexEncode m.1 m.2).getD []

/-- The 14-byte length header of a frame with payload length `n`: the
decimal digits of `n` left-padded with ASCII zeros. -/
def headerBytes (n : Nat) : List Nat :=
  List.replicate (maxBufferSizeDigits - (natDigits n).length) 48 ++ natDigits n

/-- A message the client can actually send: the channel id is the 36-byte
text of a UUID, and the payload length fits in the 14-digit prefix. -/
def ValidMsg (m : MuxMsg) : Prop :=
  m.1.length = 36 ∧ (natDigits (m.1.length + m.2.length)).length ≤ 14

instance (m : MuxMsg) : Decidable (ValidMsg m) := by
  unfold ValidMsg; infer_instance

/-- Concatenation of the frames of a message sequence: the byte stream a
sender produces for it. -/
def encodeStream (msgs : List MuxMsg) : List Nat := (msgs.map frameD).flatten

/-- The `data` handler installed by the `MultiplexSocket` constructor
(src/client.ts lines 126-129), iterated over a list of received chunks:
each chunk is appended to the buffer, then the parser runs and the buffer
is replaced by the remainder.  Returns all emitted events in order and the
final buffer. -/
def processChunks (chunks : List (List Nat)) : List MuxMsg × List Nat :=
  chunks.foldl
    (fun acc chunk =>
      let res := emitMessagesFromBuffer (acc.2 ++ chunk)
      (acc.1 ++ res.1, res.2))
    ([], [])

/-!
The linked-list `Queue` of src/client.ts lines 78-112.  Mutable heap nodes
`{ next, value }` are modelled with an explicit heap: node addresses are
natural numbers, `nxt` and `val` give each allocated node's `next` pointer
and value, `fresh` is the next unused address, and `start` / `qend` are the
`start` and `end` pointers (`end` is a Lean keyword). -/

structure LinkedQueue (α : Type) where
  nxt : Nat → Option Nat
  val : Nat → Option α
  fresh : Nat
  start : Option Nat
  qend : Option Nat

/-- A freshly constructed `new Queue()`. -/
def LinkedQueue.empty (α : Type) : LinkedQueue α :=
  ⟨fun _ => none, fun _ => none, 0, none, none⟩

/-- `Queue.push`: allocate `newNode = { next: null, value }`; when `end` is
null both pointers move to the new node, otherwise `end.next = newNode`
and `end = newNode`. -/
def LinkedQueue.push {α : Type} (q : LinkedQueue α) (value : α) : LinkedQueue α :=
  let addr := q.fresh
  let nxt1 : Nat → Option Nat := fun i => if i = addr then none else q.nxt i
  let val1 : Nat → Option α := fun i => if i = addr then some value else q.val i
  match q.qend with
  | none =>
    { nxt := nxt1, val := val1, fresh := addr + 1,
      start := some addr, qend := some addr }
  | some e =>
    { nxt := fun i => if i = e then some addr else nxt1 i, val := val1,
      fresh := addr + 1, start := q.start, qend := some addr }

/-- `Queue.pop`: return null on an empty queue; otherwise return the start
node's value, advancing `start`, and reset both pointers when the last
node is removed. -/
def LinkedQueue.pop {α : Type} (q : LinkedQueue α) : Option α × LinkedQueue α :=
  match q.start with
  | none => (none, q)
  | some a =>
    match q.nxt a with
    | some b => (q.val a, { q with start := some b })
    | none => (q.val a, { q with start := none, qend := none })

/-- One queue operation. -/
inductive QOp (α : Type) where
  | push (v : α)
  | pop

/-- Run a list of operations on the heap-modelled queue, collecting each
`pop` result in order. -/
def runLinked {α : Type} (q : LinkedQueue α) : List (QOp α) → LinkedQueue α × List (Option α)
  | [] => (q, [])
  | QOp.push v :: rest => runLinked (q.push v) rest
  | QOp.pop :: rest =>
    let r := q.pop
    let t := runLinked r.2 rest
    (t.1, r.1 :: t.2)

/-- Run the same operations on the specification FIFO: a plain list where
`push` appends at the back and `pop` removes the front. -/
def runListQ {α : Type} (l : List α) : List (QOp α) → List α × List (Option α)
  | [] => (l, [])
  | QOp.push v :: rest => runListQ (l ++ [v]) rest
  | QOp.pop :: rest =>
    match l with
    | [] =>
      let t := runListQ ([] : List α) rest
      (t.1, none :: t.2)
    | x :: xs =>
      let t := runListQ xs rest
      (t.1, some x :: t.2)

/-- The chain of heap nodes reachable from address `a`: `NChain q a addrs`
holds when following `nxt` from `a` visits exactly the addresses `addrs`
(starting at `a`) and ends at a node whose `nxt` is null. -/
inductive NChain {α : Type} (q : LinkedQueue α) : Nat → List Nat → Prop where
  | last (a : Nat) : q.nxt a = none → NChain q a [a]
  | cons (a b : Nat) (rest : List Nat) :
      q.nxt a = some b → NChain q b rest → NChain q a (a :: rest)

/-- The heap queue `q` represents the abstract list `l`. -/
def QRepr {α : Type} (q : LinkedQueue α) (l : List α) : Prop :=
  match q.start with
  | none => q.qend = none ∧ l = []
  | some s =>
    ∃ addrs : List Nat,
      NChain q s addrs ∧
      q.qend = addrs.getLast? ∧
      (∀ a ∈ addrs, a < q.fresh) ∧
      addrs.map q.val = l.map some

/-!
The write side of `MultiplexSocket` (src/client.ts lines 114-178): the
`sending` flag, the `messageQueue` and the socket writes, modelled as a
state machine.  The `messageQueue` is given as the abstract FIFO list that
`Queue` implements (see the `queue_fifo` refinement below): `push` appends
at the back, `pop` removes the front.  `wire` is the sequence of messages
passed to `this.write`, in order; the receiver sees the concatenation of
their frames. -/

structure MuxState where
  sending : Bool
  messageQueue : List MuxMsg
  wire : List MuxMsg
deriving DecidableEq

/-- The initial state of a `MultiplexSocket`. -/
def muxInit : MuxState := ⟨false, [], []⟩

/-- `multiplexWrite(channelId, buffer)` called with both arguments (every
external call site passes both): when `sending`, the payload is queued;
otherwise `sending` is set and the frame is written to the socket.  The
queue is not consulted in the second branch because `channelIdAndData`
short-circuits `channelIdAndData || this.messageQueue.pop()`. -/
def multiplexWriteCall (s : MuxState) (m : MuxMsg) : MuxState :=
  if s.sending then { s with messageQueue := s.messageQueue ++ [m] }
  else { s with sending := true, wire := s.wire ++ [m] }

/-- The completion callback of the socket write: it clears `sending` and
calls `multiplexWrite()` with no arguments, which pops the queue and, when
a message is pending, sets `sending` again and writes its frame.  The two
assignments to `sending` are merged into their net effect. -/
def writeCompleteStep (s : MuxState) : MuxState :=
  match s.messageQueue with
  | [] => { s with sending := false }
  | m :: rest =>
    { s with sending := true, messageQueue := rest, wire := s.wire ++ [m] }

/-- An event of the write state machine: an external `multiplexWrite` call
or the completion of the in-flight socket write. -/
inductive MuxEv where
  | call (m : MuxMsg)
  | complete
deriving DecidableEq

/-- Step of the write state machine. -/
def muxStep (s : MuxState) : MuxEv → MuxState
  | MuxEv.call m => multiplexWriteCall s m
  | MuxEv.complete => writeCompleteStep s

/-- Run a trace of events. -/
def muxRun (s : MuxState) (tr : List MuxEv) : MuxState := tr.foldl muxStep s

/-- The messages of the `call` events of a trace, in order. -/
def muxCallsOf (tr : List MuxEv) : List MuxMsg :=
  tr.filterMap (fun e => match e with | MuxEv.call m => some m | MuxEv.complete => none)

/-- The number of completion events of a trace. -/
def completesOf (tr : List MuxEv) : Nat :=
  (tr.filter (fun e => e == MuxEv.complete)).length

/-- Well-formed traces: a write-completion callback can only fire while a
write is in flight, i.e. while `sending` is set. -/
inductive MuxTraceOK : MuxState → List MuxEv → Prop where
  | nil (s : MuxState) : MuxTraceOK s []
  | call (s : MuxState) (m : MuxMsg) (tr : List MuxEv) :
      MuxTraceOK (multiplexWriteCall s m) tr → MuxTraceOK s (MuxEv.call m :: tr)
  | complete (s : MuxState) (tr : List MuxEv) :
      s.sending = true → MuxTraceOK (writeCompleteStep s) tr →
      MuxTraceOK s (MuxEv.complete :: tr)

/-!
The inbound per-channel delivery of `forwardPortThroughSocket`
(src/client.ts lines 191-216), restricted to one channel id.  `dialed`
records whether `sockets[channelId]` exists, `ready` whether its
`readyState` is `open` or `writeOnly` (set when the `ready` event fires),
`pending` is `messagesFor[channelId]` (absent modelled as `[]`), and
`written` is the ghost sequence of writes issued to the local socket. -/

structure ChanState where
  dialed : Bool
  ready : Bool
  pending : List (List Nat)
  written : List (List Nat)
deriving DecidableEq

/-- State of a channel id never seen before. -/
def chanInit : ChanState := ⟨false, false, [], []⟩

/-- The `multiplex-data` handler for one message on this channel: dial and
store the local socket if the id is absent; then either write directly
(readyState open or writeOnly) or append to the pending queue. -/
def recvStep (s : ChanState) (message : List Nat) : ChanState :=
  let s1 := if s.dialed then s else { s with dialed := true }
  if s1.ready then { s1 with written := s1.written ++ [message] }
  else { s1 with pending := s1.pending ++ [message] }

/-- The `ready` handler of the dialed socket: write every pending message
in order, then delete the pending entry; from now on `readyState` is
open. -/
def readyStep (s : ChanState) : ChanState :=
  { s with ready := true, written := s.written ++ s.pending, pending := [] }

/-- An event seen by the channel: a `multiplex-data` message for it, or the
`ready` event of its dialed local socket. -/
inductive ChanEv where
  | recv (message : List Nat)
  | readyEv
deriving DecidableEq

/-- Step of the channel machine. -/
def chanStep (s : ChanState) : ChanEv → ChanState
  | ChanEv.recv m => recvStep s m
  | ChanEv.readyEv => readyStep s

/-- Run a trace of channel events. -/
def chanRun (s : ChanState) (tr : List ChanEv) : ChanState := tr.foldl chanStep s

/-- The messages received on the channel, in arrival order. -/
def chanRecvs (tr : List ChanEv) : List (List Nat) :=
  tr.filterMap (fun e => match e with | ChanEv.recv m => some m | ChanEv.readyEv => none)

/-- Well-formed channel traces: the `ready` event fires only on a socket
that exists (it was dialed) and fires at most once (the socket is not
ready yet when it fires). -/
inductive ChanTraceOK : ChanState → List ChanEv → Prop where
  | nil (s : ChanState) : ChanTraceOK s []
  | recv (s : ChanState) (m : List Nat) (tr : List ChanEv) :
      ChanTraceOK (recvStep s m) tr → ChanTraceOK s (ChanEv.recv m :: tr)
  | ready (s : ChanState) (tr : List ChanEv) :
      s.dialed = true → s.ready = false → ChanTraceOK (readyStep s) tr →
      ChanTraceOK s (ChanEv.readyEv :: tr)

/-!
The rendezvous server's `Address`, `OriginDescriptor` and `ClientPair`
(src/address.js and src/index.ts lines 15-92).  Sockets are modelled by
numeric identifiers.  JavaScript falsiness of the validated fields is:
the empty string for `host`, `0` for `port`. -/

structure Address where
  host : String
  port : Nat
deriving DecidableEq

/-- `Address.prototype.equals(other)`: `other?.host === this.host &&
other.port === this.port`; a missing `other` compares unequal. -/
def addrEquals (a : Address) (other : Option Address) : Bool :=
  match other with
  | none => false
  | some b => b.host == a.host && b.port == a.port

structure OriginDescriptor where
  socket : Nat
  pub : Address
  priv : Address
deriving DecidableEq

structure ClientPair where
  clientAOriginDescriptor : Option OriginDescriptor
  clientBOriginDescriptor : Option OriginDescriptor
deriving DecidableEq

/-- A fresh `new ClientPair()`. -/
def emptyPair : ClientPair := ⟨none, none⟩

/-- `ClientPair.add` (src/index.ts lines 45-68).  Returns the pair after
the call together with the message of the thrown error, if any.  Both
throws happen before any slot assignment, so the returned pair equals the
input whenever an error is returned. -/
def addPair (p : ClientPair) (d : OriginDescriptor) : ClientPair × Option String :=
  if d.pub.host == "" || d.pub.port == 0 || d.priv.host == "" || d.priv.port == 0 then
    (p, some "Cannot register incomplete origin descriptor")
  else if addrEquals d.pub ((p.clientAOriginDescriptor).map (fun a => a.pub)) ||
      addrEquals d.pub ((p.clientBOriginDescriptor).map (fun b => b.pub)) then
    (p, none)
  else
    match p.clientAOriginDescriptor with
    | none => ({ p with clientAOriginDescriptor := some d }, none)
    | some _ =>
      match p.clientBOriginDescriptor with
      | none => ({ p with clientBOriginDescriptor := some d }, none)
      | some _ => (p, some "Only two clients can be registered at a time!")

/-- Whether slot A holds a descriptor whose public endpoint matches. -/
def matchesSlotA (p : ClientPair) (publicOrigin : Address) : Bool :=
  match p.clientAOriginDescriptor with
  | some a => addrEquals publicOrigin (some a.pub)
  | none => false

/-- Whether slot B holds a descriptor whose public endpoint matches. -/
def matchesSlotB (p : ClientPair) (publicOrigin : Address) : Bool :=
  match p.clientBOriginDescriptor with
  | some b => addrEquals publicOrigin (some b.pub)
  | none => false

/-- `ClientPair.remove` (src/index.ts lines 70-86): empty whichever slot
matches the public origin, slot A first; log and change nothing when no
slot matches. -/
def removePair (p : ClientPair) (publicOrigin : Address) : ClientPair :=
  if matchesSlotA p publicOrigin then { p with clientAOriginDescriptor := none }
  else if matchesSlotB p publicOrigin then { p with clientBOriginDescriptor := none }
  else p

/-- `ClientPair.clear` (src/index.ts lines 88-92): call `socket.end()` on
each present descriptor's control socket.  The slots themselves are not
assigned.  Returns the unchanged pair and the identifiers of the sockets
that were ended, in order. -/
def clearPair (p : ClientPair) : ClientPair × List Nat :=
  (p,
    ((p.clientAOriginDescriptor).map (fun a => a.socket)).toList ++
      ((p.clientBOriginDescriptor).map (fun b => b.socket)).toList)

/-- A mutation of the server's pair: a `register` (add, throws swallowed by
the event loop leaving the pair as it was) or a socket-end removal. -/
inductive PairOp where
  | add (d : OriginDescriptor)
  | remove (a : Address)

/-- Run a sequence of pair operations from the empty pair. -/
def runPairOps (ops : List PairOp) : ClientPair :=
  ops.foldl
    (fun p op =>
      match op with
      | PairOp.add d => (addPair p d).1
      | PairOp.remove a => removePair p a)
    emptyPair

/-- Both slots filled implies distinct public endpoints. -/
def pairDistinctOk (p : ClientPair) : Bool :=
  match p.clientAOriginDescriptor, p.clientBOriginDescriptor with
  | some a, some b => !(addrEquals a.pub (some b.pub))
  | _, _ => true

/-!
The retry budget of the peer dial (src/client.ts lines 41-63 and 252-270):
`tryToReconnect = limitExecutionCount(throttle(connect, 1000), timeout)`.
`executionCount` is the closure counter of `limitExecutionCount`;
`connects` is the ghost number of times the underlying throttled
`connect` was invoked (each successful call schedules exactly one
`connect` after the fixed delay). -/

structure RetryState where
  executionCount : Nat
  connects : Nat
deriving DecidableEq

/-- One call of the function returned by `limitExecutionCount`: when the
counter has reached the limit it throws (`true` in the second component)
without calling the wrapped function; otherwise it increments the counter
and invokes the wrapped function once. -/
def tryToReconnectOnce (limit : Nat) (s : RetryState) : RetryState × Bool :=
  if limit ≤ s.executionCount then (s, true)
  else (⟨s.executionCount + 1, s.connects + 1⟩, false)

/-- State after `n` calls of `tryToReconnect` from a fresh closure. -/
def runRetries (limit : Nat) : Nat → RetryState
  | 0 => ⟨0, 0⟩
  | n + 1 => (tryToReconnectOnce limit (runRetries limit n)).1

/-- Outcome of the `error` handler of `setupSocketToPeer`. -/
inductive ErrorOutcome where
  | retryScheduled
  | abortRejected
  | destroyedRejected
deriving DecidableEq

/-- The `error` handler (src/client.ts lines 254-270): when the own abort
signal fired, reject; otherwise call `tryToReconnect()`, and if it throws
(retry count exhausted), remove the listeners, destroy the socket and
reject the attempt. -/
def onPeerSocketError (aborted : Bool) (limit : Nat) (s : RetryState) :
    RetryState × ErrorOutcome :=
  if aborted then (s, ErrorOutcome.abortRejected)
  else
    let r := tryToReconnectOnce limit s
    if r.2 then (s, ErrorOutcome.destroyedRejected)
    else (r.1, ErrorOutcome.retryScheduled)

/-- The default of the `--timeout` option: `'60'` parsed in base 10. -/
def timeoutDefault : Nat := 60

/-!
Basic facts about the decimal rendering and the digit parser.
-/

theorem natDigitsAux_congr :
    ∀ f1 f2 n, n < f1 → n < f2 → natDigitsAux f1 n = natDigitsAux f2 n := by
  intro f1
  induction f1 with
  | zero => intro f2 n h1; omega
  | succ a ih =>
    intro f2 n h1 h2
    cases f2 with
    | zero => omega
    | succ b =>
      simp only [natDigitsAux]
      by_cases h : n < 10
      · simp [h]
      · simp only [h, if_false]
        have hdiv : n / 10 < n := Nat.div_lt_self (by omega) (by omega)
        rw [ih b (n / 10) (by omega) (by omega)]

theorem natDigits_eq (n : Nat) :
    natDigits n = if n < 10 then [48 + n] else natDigits (n / 10) ++ [48 + n % 10] := by
  unfold natDigits
  by_cases h : n < 10
  · simp [natDigitsAux, h]
  · simp only [natDigitsAux, h, if_false]
    have hdiv : n / 10 < n := Nat.div_lt_self (by omega) (by omega)
    rw [natDigitsAux_congr n (n / 10 + 1) (n / 10) (by omega) (by omega)]
    simp only [natDigitsAux]

theorem natDigits_ne_nil (n : Nat) : natDigits n ≠ [] := by
  rw [natDigits_eq]
  by_cases h : n < 10 <;> simp [h]

theorem natDigits_all_digits (n : Nat) : ∀ d ∈ natDigits n, isDigitB d = true := by
  induction n using Nat.strong_induction_on with
  | _ n ih =>
    rw [natDigits_eq]
    by_cases h : n < 10
    · simp only [h, if_true, List.mem_singleton]
      intro d hd
      subst hd
      simp [isDigitB]
      omega
    · simp only [h, if_false, List.mem_append, List.mem_singleton]
      intro d hd
      rcases hd with hd | hd
      · exact ih (n / 10) (Nat.div_lt_self (by omega) (by omega)) d hd
      · subst hd
        have : n % 10 < 10 := Nat.mod_lt _ (by omega)
        simp [isDigitB]
        omega

theorem parseDigits_append_singleton (l : List Nat) (d : Nat) :
    parseDigits (l ++ [d]) = parseDigits l * 10 + (d - 48) := by
  simp [parseDigits, List.foldl_append]

theorem parseDigits_natDigits (n : Nat) : parseDigits (natDigits n) = n := by
  induction n using Nat.strong_induction_on with
  | _ n ih =>
    rw [natDigits_eq]
    by_cases h : n < 10
    · simp [h, parseDigits]
    · simp only [h, if_false]
      rw [parseDigits_append_singleton,
        ih (n / 10) (Nat.div_lt_self (by omega) (by omega))]
      have h1 : n % 10 < 10 := Nat.mod_lt _ (by omega)
      omega

theorem parseDigits_replicate_zero (k : Nat) (l : List Nat) :
    parseDigits (List.replicate k 48 ++ l) = parseDigits l := by
  induction k with
  | zero => simp
  | succ m ih =>
    rw [List.replicate_succ]
    simpa [parseDigits] using ih

theorem takeWhile_eq_self_of_all {p : Nat → Bool} :
    ∀ l : List Nat, (∀ b ∈ l, p b = true) → l.takeWhile p = l := by
  intro l
  induction l with
  | nil => simp
  | cons a t ih =>
    intro h
    rw [List.takeWhile_cons, h a (by simp)]
    simp [ih (fun b hb => h b (by simp [hb]))]

theorem isSpaceB_of_digit (d : Nat) (hd : isDigitB d = true) : isSpaceB d = false := by
  simp only [isDigitB, Bool.and_eq_true, decide_eq_true_eq] at hd
  simp only [isSpaceB]
  simp only [Bool.or_eq_false_iff, beq_eq_false_iff_ne, ne_eq]
  omega

/-- On a nonempty all-digit byte string, `parseInt` returns the digit
value. -/
theorem parseIntJS_digits (l : List Nat) (hne : l ≠ [])
    (hd : ∀ b ∈ l, isDigitB b = true) :
    parseIntJS l = some ((parseDigits l : Nat) : Int) := by
  cases l with
  | nil => exact absurd rfl hne
  | cons c t =>
    have hc : isDigitB c = true := hd c (by simp)
    have hcd : 48 ≤ c ∧ c ≤ 57 := by
      simpa [isDigitB, Bool.and_eq_true, decide_eq_true_eq] using hc
    unfold parseIntJS
    rw [List.dropWhile_cons, isSpaceB_of_digit c hc]
    simp only [Bool.false_eq_true, if_false]
    have h45 : ¬ c = 45 := by omega
    have h43 : ¬ c = 43 := by omega
    rw [if_neg h45, if_neg h43]
    unfold parseDigitsOpt
    rw [takeWhile_eq_self_of_all (c :: t) hd]
    simp

/-!
The length header: `rjust` success, its shape, and how the receiver parses
it back.
-/

theorem rjust_natDigits (n : Nat) (h : (natDigits n).length ≤ 14) :
    rjust (natDigits n) 14 [48] = some (headerBytes n) := by
  unfold rjust headerBytes maxBufferSizeDigits
  rw [if_neg (by omega)]
  congr 1
  congr 1
  have hf : (fun i => ([48] : List Nat).getD (i % ([48] : List Nat).length) 0) =
      fun _ : Nat => (48 : Nat) := by
    funext i
    simp [Nat.mod_one]
  rw [hf, List.map_const', List.length_range]

theorem headerBytes_length (n : Nat) (h : (natDigits n).length ≤ 14) :
    (headerBytes n).length = 14 := by
  unfold headerBytes maxBufferSizeDigits
  simp only [List.length_append, List.length_replicate]
  omega

theorem headerBytes_all_digits (n : Nat) :
    ∀ d ∈ headerBytes n, isDigitB d = true := by
  unfold headerBytes
  intro d hd
  rcases List.mem_append.mp hd with hd | hd
  · have := List.eq_of_mem_replicate hd
    subst this
    decide
  · exact natDigits_all_digits n d hd

theorem headerBytes_ne_nil (n : Nat) : headerBytes n ≠ [] := by
  unfold headerBytes
  intro h
  exact natDigits_ne_nil n (List.append_eq_nil.mp h).2

theorem parseIntJS_headerBytes (n : Nat) :
    parseIntJS (headerBytes n) = some ((n : Nat) : Int) := by
  rw [parseIntJS_digits (headerBytes n) (headerBytes_ne_nil n) (headerBytes_all_digits n)]
  unfold headerBytes
  rw [parseDigits_replicate_zero, parseDigits_natDigits]

/-!
Evaluation of `subarrayJS` at the argument shapes used by the parser.
-/

theorem subarrayJS_coe (buf : List Nat) (s e : Nat) :
    subarrayJS buf (s : Int) (e : Int) = (buf.take e).drop s := by
  simp only [subarrayJS]
  rw [if_neg (by omega : ¬ ((s : Int) < 0)), if_neg (by omega : ¬ ((e : Int) < 0))]
  have h1 : (min (s : Int) (buf.length : Int)).toNat = min s buf.length := by
    rw [← Nat.cast_min, Int.toNat_ofNat]
  have h2 : (min (e : Int) (buf.length : Int)).toNat = min e buf.length := by
    rw [← Nat.cast_min, Int.toNat_ofNat]
  rw [h1, h2]
  have htake : buf.take (min e buf.length) = buf.take e := by
    rcases Nat.le_total e buf.length with he | he
    · rw [Nat.min_eq_left he]
    · rw [Nat.min_eq_right he, List.take_length, List.take_of_length_le he]
  rw [htake]
  rcases Nat.le_total s buf.length with hs | hs
  · rw [Nat.min_eq_left hs]
  · have hlen : (buf.take e).length ≤ buf.length := by
      simpa using Nat.min_le_right e buf.length
    rw [Nat.min_eq_right hs, List.drop_eq_nil_of_le hlen,
      List.drop_eq_nil_of_le (Nat.le_trans hlen hs)]

theorem subarrayJS_zero_fourteen (buf : List Nat) :
    subarrayJS buf 0 14 = buf.take 14 := by
  have h := subarrayJS_coe buf 0 14
  rw [List.drop_zero] at h
  have h0 : ((0 : Nat) : Int) = (0 : Int) := by norm_num
  have h14 : ((14 : Nat) : Int) = (14 : Int) := by norm_num
  rwa [h0, h14] at h

theorem subarrayJS_mid (buf : List Nat) (n : Nat) :
    subarrayJS buf 14 ((n : Int) + 14) = (buf.take (n + 14)).drop 14 := by
  have h := subarrayJS_coe buf 14 (n + 14)
  have he : ((n + 14 : Nat) : Int) = (n : Int) + 14 := by push_cast; ring
  have h14 : ((14 : Nat) : Int) = (14 : Int) := by norm_num
  rwa [he, h14] at h

theorem subarrayJS_tail (buf : List Nat) (n : Nat) :
    subarrayJS buf (14 + (n : Int)) (buf.length : Int) = buf.drop (14 + n) := by
  have h := subarrayJS_coe buf (14 + n) buf.length
  have hs : ((14 + n : Nat) : Int) = 14 + (n : Int) := by push_cast; ring
  rwa [hs, List.take_length] at h

theorem subarrayJS_zero (msg : List Nat) (e : Nat) :
    subarrayJS msg 0 (e : Int) = msg.take e := by
  have h := subarrayJS_coe msg 0 e
  have h0 : ((0 : Nat) : Int) = (0 : Int) := by norm_num
  rwa [h0, List.drop_zero] at h

theorem subarrayJS_to_end (msg : List Nat) (s : Nat) :
    subarrayJS msg (s : Int) (msg.length : Int) = msg.drop s := by
  have h := subarrayJS_coe msg s msg.length
  rwa [List.take_length] at h

/-!
Fuel irrelevance for the frame parser, and its one-step unfolding through
`parseStep`.
-/

theorem length_subarrayJS_header (buffer : List Nat) :
    (subarrayJS buffer 0 14).length = min 14 buffer.length := by
  rw [subarrayJS_zero_fourteen, List.length_take]

theorem emitAux_congr :
    ∀ f1 f2 buffer, buffer.length ≤ f1 → buffer.length ≤ f2 →
      emitAux f1 buffer = emitAux f2 buffer := by
  intro f1
  induction f1 with
  | zero =>
    intro f2 buffer h1 h2
    have hb : buffer = [] := List.length_eq_zero.mp (by omega)
    subst hb
    cases f2 <;> simp [emitAux]
  | succ a ih =>
    intro f2 buffer h1 h2
    cases f2 with
    | zero =>
      have hb : buffer = [] := List.length_eq_zero.mp (by omega)
      subst hb
      simp [emitAux]
    | succ b =>
      simp only [emitAux]
      by_cases h0 : buffer.length = 0
      · simp [h0]
      · simp only [h0, if_false]
        by_cases h14 : (subarrayJS buffer 0 14).length ≠ 14
        · simp [h14]
        · simp only [h14, if_false]
          have hlen14 : 14 ≤ buffer.length := by
            rw [not_not, length_subarrayJS_header] at h14
            omega
          cases hp : parseIntJS (subarrayJS buffer 0 14) with
          | none => rfl
          | some L =>
            simp only []
            by_cases hL : ((subarrayJS buffer 14 (L + 14)).length : Int) = L
            · simp only [hL, if_true]
              have hLnn : L = ((subarrayJS buffer 14 (L + 14)).length : Int) := hL.symm
              set N := (subarrayJS buffer 14 (L + 14)).length with hN
              have hrest : subarrayJS buffer (14 + L) (buffer.length : Int) =
                  buffer.drop (14 + N) := by
                rw [hLnn]
                exact subarrayJS_tail buffer N
              rw [hrest]
              have hrl : (buffer.drop (14 + N)).length ≤ buffer.length - 14 := by
                rw [List.length_drop]
                omega
              rw [ih b (buffer.drop (14 + N)) (by omega) (by omega)]
            · simp [hL]

theorem emit_of_parseStep_none (buffer : List Nat) (h : parseStep buffer = none) :
    emitMessagesFromBuffer buffer = ([], buffer) := by
  unfold emitMessagesFromBuffer
  cases buffer with
  | nil => simp [emitAux]
  | cons x xs =>
    rw [List.length_cons]
    simp only [emitAux]
    unfold parseStep at h
    by_cases h0 : (x :: xs).length = 0
    · simp [h0]
    · simp only [h0, if_false] at h ⊢
      by_cases h14 : (subarrayJS (x :: xs) 0 14).length ≠ 14
      · simp [h14]
      · simp only [h14, if_false] at h ⊢
        cases hp : parseIntJS (subarrayJS (x :: xs) 0 14) with
        | none => rfl
        | some L =>
          rw [hp] at h
          simp only [] at h ⊢
          by_cases hL : ((subarrayJS (x :: xs) 14 (L + 14)).length : Int) = L
          · simp [hL] at h
          · simp [hL]

theorem emit_of_parseStep_some (buffer : List Nat) (ev : MuxMsg) (rest : List Nat)
    (h : parseStep buffer = some (ev, rest)) :
    emitMessagesFromBuffer buffer =
      (ev :: (emitMessagesFromBuffer rest).1, (emitMessagesFromBuffer rest).2) := by
  unfold emitMessagesFromBuffer
  cases buffer with
  | nil => simp [parseStep] at h
  | cons x xs =>
    rw [List.length_cons]
    simp only [emitAux]
    unfold parseStep at h
    by_cases h0 : (x :: xs).length = 0
    · simp at h0
    · simp only [h0, if_false] at h ⊢
      by_cases h14 : (subarrayJS (x :: xs) 0 14).length ≠ 14
      · simp [h14] at h
      · simp only [h14, if_false] at h ⊢
        have hlen14 : 14 ≤ (x :: xs).length := by
          rw [not_not, length_subarrayJS_header] at h14
          omega
        cases hp : parseIntJS (subarrayJS (x :: xs) 0 14) with
        | none => rw [hp] at h; simp at h
        | some L =>
          rw [hp] at h
          simp only [] at h ⊢
          by_cases hL : ((subarrayJS (x :: xs) 14 (L + 14)).length : Int) = L
          · simp only [hL, if_true] at h ⊢
            have hpair := Option.some.inj h
            have hev := (congrArg Prod.fst hpair).symm
            have hrest := (congrArg Prod.snd hpair).symm
            simp only [] at hev hrest
            have hLnn : L = ((subarrayJS (x :: xs) 14 (L + 14)).length : Int) := hL.symm
            set N := (subarrayJS (x :: xs) 14 (L + 14)).length with hN
            have hdrop : subarrayJS (x :: xs) (14 + L) ((x :: xs).length : Int) =
                (x :: xs).drop (14 + N) := by
              rw [hLnn]
              exact subarrayJS_tail (x :: xs) N
            have hr2 : rest = (x :: xs).drop (14 + N) := by rw [hrest, hdrop]
            have hrl : rest.length ≤ (x :: xs).length - 14 := by
              rw [hr2, List.length_drop]
              omega
            rw [hdrop, ← hr2]
            rw [emitAux_congr (xs.length) (rest.length) rest (by simp at hrl ⊢; omega) (le_refl _)]
            rw [hev]
          · simp [hL] at h

/-!
Shape of an encoded frame and how the parser consumes it.
-/

theorem multiplexEncode_valid (m : MuxMsg) (hv : ValidMsg m) :
    multiplexEncode m.1 m.2 =
      some (headerBytes (m.1.length + m.2.length) ++ (m.1 ++ m.2)) := by
  simp only [multiplexEncode, maxBufferSizeDigits, List.length_append]
  rw [rjust_natDigits _ hv.2]
  rfl

theorem frameD_valid (m : MuxMsg) (hv : ValidMsg m) :
    frameD m = headerBytes (m.1.length + m.2.length) ++ (m.1 ++ m.2) := by
  unfold frameD
  rw [multiplexEncode_valid m hv]
  rfl

theorem frameD_length (m : MuxMsg) (hv : ValidMsg m) :
    (frameD m).length = 14 + (m.1.length + m.2.length) := by
  rw [frameD_valid m hv, List.length_append, headerBytes_length _ hv.2,
    List.length_append]

theorem subarrayJS_zero_36 (msg : List Nat) : subarrayJS msg 0 36 = msg.take 36 := by
  have h := subarrayJS_zero msg 36
  have h36 : ((36 : Nat) : Int) = (36 : Int) := by norm_num
  rwa [h36] at h

theorem subarrayJS_36_end (msg : List Nat) :
    subarrayJS msg 36 (msg.length : Int) = msg.drop 36 := by
  have h := subarrayJS_to_end msg 36
  have h36 : ((36 : Nat) : Int) = (36 : Int) := by norm_num
  rwa [h36] at h

/-- One complete frame followed by anything: `parseStep` emits exactly the
frame's message and returns the trailing bytes. -/
theorem parseStep_frame (m : MuxMsg) (hv : ValidMsg m) (rest : List Nat) :
    parseStep (frameD m ++ rest) = some (m, rest) := by
  obtain ⟨h36, hdig⟩ := hv
  have hhlen : (headerBytes (m.1.length + m.2.length)).length = 14 :=
    headerBytes_length _ hdig
  have hplen : (m.1 ++ m.2).length = m.1.length + m.2.length := List.length_append _ _
  have hbuf : frameD m ++ rest =
      headerBytes (m.1.length + m.2.length) ++ ((m.1 ++ m.2) ++ rest) := by
    rw [frameD_valid m ⟨h36, hdig⟩, List.append_assoc]
  set N := m.1.length + m.2.length with hN
  set buf := headerBytes N ++ ((m.1 ++ m.2) ++ rest) with hbufdef
  rw [hbuf]
  have hlen : buf.length = 14 + (N + rest.length) := by
    rw [hbufdef]
    simp only [List.length_append, hhlen]
    try omega
  have hhead : subarrayJS buf 0 14 = headerBytes N := by
    rw [hbufdef, subarrayJS_zero_fourteen, List.take_left' hhlen]
  unfold parseStep
  rw [if_neg (by rw [hlen]; omega)]
  rw [hhead, if_neg (by rw [hhlen]; omega)]
  rw [parseIntJS_headerBytes N]
  have hmsg : subarrayJS buf 14 ((N : Int) + 14) = m.1 ++ m.2 := by
    rw [subarrayJS_mid, List.drop_take, Nat.add_sub_cancel, hbufdef,
      List.drop_left' hhlen, List.take_left' hplen]
  simp only [hmsg]
  rw [if_pos (by rw [hplen])]
  have hid : subarrayJS (m.1 ++ m.2) 0 36 = m.1 := by
    rw [subarrayJS_zero_36, List.take_left' h36]
  have hdata : subarrayJS (m.1 ++ m.2) 36 ((m.1 ++ m.2).length : Int) = m.2 := by
    rw [subarrayJS_36_end, List.drop_left' h36]
  have hrest : subarrayJS buf (14 + (N : Int)) (buf.length : Int) = rest := by
    rw [subarrayJS_tail, hbufdef, ← List.append_assoc]
    have hfl : (headerBytes N ++ (m.1 ++ m.2)).length = 14 + N := by
      rw [List.length_append, hhlen, hplen]
    exact List.drop_left' hfl
  rw [hid, hdata, hrest]

/-- A complete frame at the front of the buffer is consumed and emitted. -/
theorem emit_consume (m : MuxMsg) (hv : ValidMsg m) (rest : List Nat) :
    emitMessagesFromBuffer (frameD m ++ rest) =
      (m :: (emitMessagesFromBuffer rest).1, (emitMessagesFromBuffer rest).2) :=
  emit_of_parseStep_some _ m rest (parseStep_frame m hv rest)

/-- A strict prefix of a frame parses to nothing and stays buffered. -/
theorem parseStep_front_strict (m : MuxMsg) (hv : ValidMsg m) (b : List Nat)
    (hpre : ∃ t, b ++ t = frameD m) (hlt : b.length < (frameD m).length) :
    parseStep b = none := by
  obtain ⟨h36, hdig⟩ := hv
  obtain ⟨t, ht⟩ := hpre
  have hhlen : (headerBytes (m.1.length + m.2.length)).length = 14 :=
    headerBytes_length _ hdig
  have hplen : (m.1 ++ m.2).length = m.1.length + m.2.length := List.length_append _ _
  have hFlen : (frameD m).length = 14 + (m.1.length + m.2.length) :=
    frameD_length m ⟨h36, hdig⟩
  set N := m.1.length + m.2.length with hN
  by_cases hb14 : b.length < 14
  · unfold parseStep
    by_cases hb0 : b.length = 0
    · rw [if_pos hb0]
    · rw [if_neg hb0, if_pos]
      rw [length_subarrayJS_header]
      omega
  · have hble : 14 ≤ b.length := by omega
    have hhead : subarrayJS b 0 14 = headerBytes N := by
      rw [subarrayJS_zero_fourteen]
      have h1 : b.take 14 = (b ++ t).take 14 :=
        (List.take_append_of_le_length hble).symm
      rw [h1, ht, frameD_valid m ⟨h36, hdig⟩, List.take_left' hhlen]
    unfold parseStep
    rw [if_neg (by omega), hhead, if_neg (by rw [hhlen]; omega)]
    rw [parseIntJS_headerBytes N]
    have hmlen : (subarrayJS b 14 ((N : Int) + 14)).length = b.length - 14 := by
      rw [subarrayJS_mid, List.length_drop, List.length_take]
      omega
    simp only [hmlen]
    rw [if_neg]
    intro hcontra
    have := Nat.cast_inj (R := Int) |>.mp hcontra
    omega

/-- A strict prefix of a frame is left buffered without any emission. -/
theorem emit_front_strict (m : MuxMsg) (hv : ValidMsg m) (b : List Nat)
    (hpre : ∃ t, b ++ t = frameD m) (hlt : b.length < (frameD m).length) :
    emitMessagesFromBuffer b = ([], b) :=
  emit_of_parseStep_none b (parseStep_front_strict m hv b hpre hlt)

theorem encodeStream_nil : encodeStream [] = [] := rfl

theorem encodeStream_cons (m : MuxMsg) (ms : List MuxMsg) :
    encodeStream (m :: ms) = frameD m ++ encodeStream ms := by
  simp [encodeStream]

theorem encodeStream_append (ms1 ms2 : List MuxMsg) :
    encodeStream (ms1 ++ ms2) = encodeStream ms1 ++ encodeStream ms2 := by
  simp [encodeStream]

theorem frameD_length_pos (m : MuxMsg) (hv : ValidMsg m) :
    14 ≤ (frameD m).length := by
  rw [frameD_length m hv]
  omega

/-- Incremental parsing of a prefix of a valid frame stream: the parser
emits exactly the fully buffered frames and keeps the strict remainder of
the next frame. -/
theorem stream_parse :
    ∀ fuel : Nat, ∀ msgs : List MuxMsg, ∀ b : List Nat,
      b.length ≤ fuel → (∀ m ∈ msgs, ValidMsg m) →
      (∃ t, b ++ t = encodeStream msgs) →
      ∃ ms1 ms2 r,
        msgs = ms1 ++ ms2 ∧
        emitMessagesFromBuffer b = (ms1, r) ∧
        b = encodeStream ms1 ++ r ∧
        (∃ t2, r ++ t2 = encodeStream ms2) ∧
        (ms2 = [] → r = []) ∧
        (∀ m ms', ms2 = m :: ms' → r.length < (frameD m).length) := by
  intro fuel
  induction fuel with
  | zero =>
    intro msgs b hf hv hpre
    have hb : b = [] := List.length_eq_zero.mp (by omega)
    subst hb
    refine ⟨[], msgs, [], rfl, rfl, rfl, ?_, fun _ => rfl, ?_⟩
    · simpa using hpre
    · intro m ms' heq
      have := frameD_length_pos m (hv m (by rw [heq]; simp))
      simp only [List.length_nil]
      omega
  | succ k ih =>
    intro msgs b hf hv hpre
    cases msgs with
    | nil =>
      obtain ⟨t, ht⟩ := hpre
      rw [encodeStream_nil] at ht
      have hb : b = [] := (List.append_eq_nil.mp ht).1
      subst hb
      exact ⟨[], [], [], rfl, rfl, rfl, ⟨[], rfl⟩, fun _ => rfl, by intro m ms' h; cases h⟩
    | cons m ms' =>
      have hvm : ValidMsg m := hv m (by simp)
      obtain ⟨t, ht⟩ := hpre
      rw [encodeStream_cons] at ht
      by_cases hb : b.length < (frameD m).length
      · -- strict prefix of the first frame: nothing is emitted
        have hpf : b = (frameD m).take b.length := by
          have h1 : (b ++ t).take b.length = b := by
            rw [List.take_append_of_le_length (le_refl _), List.take_length]
          conv_lhs => rw [← h1]
          rw [ht, List.take_append_of_le_length (by omega)]
        have hpre1 : ∃ t1, b ++ t1 = frameD m := by
          refine ⟨(frameD m).drop b.length, ?_⟩
          conv_rhs => rw [← List.take_append_drop b.length (frameD m)]
          rw [← hpf]
        refine ⟨[], m :: ms', b, rfl, emit_front_strict m hvm b hpre1 hb, rfl, ?_, ?_, ?_⟩
        · exact ⟨t, by rw [encodeStream_cons]; exact ht⟩
        · intro h; cases h
        · intro m0 ms0 heq
          have hm0 : m0 = m := by
            have := congrArg (fun l => l.head?) heq
            simpa using this.symm
          rw [hm0]
          exact hb
      · -- the first frame is complete in the buffer: it is consumed
        have hFle : (frameD m).length ≤ b.length := by omega
        have hF : b.take (frameD m).length = frameD m := by
          have h1 : (b ++ t).take (frameD m).length = b.take (frameD m).length :=
            List.take_append_of_le_length hFle
          rw [← h1, ht, List.take_left]
        have hsplit : b = frameD m ++ b.drop (frameD m).length := by
          conv_lhs => rw [← List.take_append_drop (frameD m).length b]
          rw [hF]
        set b2 := b.drop (frameD m).length with hb2
        have hb2t : b2 ++ t = encodeStream ms' := by
          have := ht
          rw [hsplit, List.append_assoc] at this
          exact (List.append_cancel_left this)
        have hb2len : b2.length ≤ k := by
          rw [hb2, List.length_drop]
          have h14 := frameD_length_pos m hvm
          omega
        obtain ⟨ms1', ms2', r, hms, hemit, hbr, hrt, hrnil, hrlt⟩ :=
          ih ms' b2 hb2len (fun x hx => hv x (by simp [hx])) ⟨t, hb2t⟩
        refine ⟨m :: ms1', ms2', r, by rw [hms, List.cons_append], ?_, ?_, hrt, hrnil, hrlt⟩
        · rw [hsplit, emit_consume m hvm b2, hemit]
        · rw [hsplit, hbr, encodeStream_cons, List.append_assoc]

/-- Decoding an entire valid frame stream recovers the message sequence and
empties the buffer. -/
theorem decode_encodeStream (msgs : List MuxMsg) (hv : ∀ m ∈ msgs, ValidMsg m) :
    emitMessagesFromBuffer (encodeStream msgs) = (msgs, []) := by
  obtain ⟨ms1, ms2, r, hms, hemit, hbr, hrt, hrnil, hrlt⟩ :=
    stream_parse (encodeStream msgs).length msgs (encodeStream msgs) (le_refl _) hv
      ⟨[], List.append_nil _⟩
  have hr : r = encodeStream ms2 := by
    have h1 : encodeStream ms1 ++ r = encodeStream ms1 ++ encodeStream ms2 := by
      rw [← hbr, hms, encodeStream_append]
    exact List.append_cancel_left h1
  cases ms2 with
  | nil =>
    rw [hemit, hrnil rfl, hms, List.append_nil]
  | cons m0 ms0 =>
    exfalso
    have hlt := hrlt m0 ms0 rfl
    have hge : (frameD m0).length ≤ r.length := by
      rw [hr, encodeStream_cons, List.length_append]
      omega
    omega

/-- Invariant step for chunked parsing: starting from any accumulated
events and a strict partial frame in the buffer, folding the remaining
chunks ends with all messages emitted and an empty buffer. -/
theorem processChunks_aux :
    ∀ chunks : List (List Nat), ∀ ms2 : List MuxMsg, ∀ buf : List Nat,
      ∀ acc : List MuxMsg,
      (∀ m ∈ ms2, ValidMsg m) →
      buf ++ chunks.flatten = encodeStream ms2 →
      (ms2 = [] → buf = []) →
      (∀ m ms', ms2 = m :: ms' → buf.length < (frameD m).length) →
      chunks.foldl
        (fun acc1 chunk =>
          let res := emitMessagesFromBuffer (acc1.2 ++ chunk)
          (acc1.1 ++ res.1, res.2)) (acc, buf) = (acc ++ ms2, []) := by
  intro chunks
  induction chunks with
  | nil =>
    intro ms2 buf acc hv hjoin hnil hlt
    cases ms2 with
    | nil =>
      have hbuf : buf = [] := hnil rfl
      subst hbuf
      simp
    | cons m0 ms0 =>
      exfalso
      have h1 := hlt m0 ms0 rfl
      have hb : buf = encodeStream (m0 :: ms0) := by simpa using hjoin
      rw [hb, encodeStream_cons, List.length_append] at h1
      omega
  | cons c cs ih =>
    intro ms2 buf acc hv hjoin hnil hlt
    have hpre : ∃ t, (buf ++ c) ++ t = encodeStream ms2 := by
      refine ⟨cs.flatten, ?_⟩
      rw [List.append_assoc]
      simpa [List.flatten_cons, List.append_assoc] using hjoin
    obtain ⟨msA, msB, r, hms, hemit, hbr, hrt, hrnil, hrlt⟩ :=
      stream_parse (buf ++ c).length ms2 (buf ++ c) (le_refl _) hv hpre
    simp only [List.foldl_cons, hemit]
    have hrb : r ++ cs.flatten = encodeStream msB := by
      have h1 : (buf ++ c) ++ cs.flatten = encodeStream msA ++ encodeStream msB := by
        rw [← encodeStream_append, ← hms]
        rw [List.append_assoc]
        simpa [List.flatten_cons, List.append_assoc] using hjoin
      rw [hbr, List.append_assoc] at h1
      exact List.append_cancel_left h1
    have hrec := ih msB r (acc ++ msA)
      (fun x hx => hv x (by rw [hms]; exact List.mem_append.mpr (Or.inr hx)))
      hrb hrnil hrlt
    rw [hrec, hms, List.append_assoc]

/-- Claim C1: for every 36-character ASCII channel id and every byte
sequence `data` whose payload length `36 + data.length` fits in 14 decimal
digits, encoding a frame the way `multiplexWrite` does (14-digit
zero-left-padded decimal length, then `channelId ++ data`) and feeding the
bytes to `emitMessagesFromBuffer` emits exactly one `multiplex-data` event
carrying the same id bytes and the same data bytes, consuming the whole
buffer. -/
theorem frame_roundtrip (channelId data : List Nat) (hid : channelId.length = 36)
    (hascii : ∀ b ∈ channelId, b < 128)
    (hfit : (natDigits (36 + data.length)).length ≤ 14) :
    ∃ w, multiplexEncode channelId data = some w ∧
      emitMessagesFromBuffer w = ([(channelId, data)], []) := by
  have hv : ValidMsg (channelId, data) := by
    constructor
    · exact hid
    · simpa [hid] using hfit
  refine ⟨frameD (channelId, data), ?_, ?_⟩
  · have he := multiplexEncode_valid (channelId, data) hv
    rw [show frameD (channelId, data) = (multiplexEncode channelId data).getD [] from rfl]
    rw [show multiplexEncode channelId data =
        multiplexEncode (channelId, data).1 (channelId, data).2 from rfl, he]
    rfl
  · have h := emit_consume (channelId, data) hv []
    rw [List.append_nil] at h
    rw [h]
    rfl

theorem frame_roundtrip_witness :
    ∃ w, multiplexEncode (List.replicate 36 97) [104, 105] = some w ∧
      emitMessagesFromBuffer w = ([(List.replicate 36 97, [104, 105])], []) :=
  frame_roundtrip (List.replicate 36 97) [104, 105] (by decide) (by decide) (by decide)

/-- Claim C2: for every valid frame stream (a concatenation of well-formed
frames) and every partitioning of the stream into chunks delivered one at
a time to the data handler, the sequence of emitted `(channelId, data)`
events equals the sequence emitted when the whole stream arrives as a
single chunk; both runs emit exactly the encoded messages and leave an
empty buffer. -/
theorem chunked_decode (msgs : List MuxMsg) (chunks : List (List Nat))
    (hv : ∀ m ∈ msgs, ValidMsg m) (hj : chunks.flatten = encodeStream msgs) :
    processChunks chunks = processChunks [encodeStream msgs] ∧
    processChunks chunks = (msgs, []) := by
  have hlt : ∀ m ms', msgs = m :: ms' → ([] : List Nat).length < (frameD m).length := by
    intro m ms' heq
    have := frameD_length_pos m (hv m (by rw [heq]; simp))
    simp only [List.length_nil]
    omega
  have h1 : processChunks chunks = (msgs, []) := by
    unfold processChunks
    have := processChunks_aux chunks msgs [] [] hv (by simpa using hj)
      (fun _ => rfl) hlt
    simpa using this
  have h2 : processChunks [encodeStream msgs] = (msgs, []) := by
    unfold processChunks
    have := processChunks_aux [encodeStream msgs] msgs [] [] hv (by simp)
      (fun _ => rfl) hlt
    simpa using this
  exact ⟨h1.trans h2.symm, h1⟩

theorem chunked_decode_witness :
    processChunks
        [(encodeStream [(List.replicate 36 97, [1, 2]), (List.replicate 36 98, [3])]).take 20,
          (encodeStream [(List.replicate 36 97, [1, 2]), (List.replicate 36 98, [3])]).drop 20] =
      (([(List.replicate 36 97, [1, 2]), (List.replicate 36 98, [3])] : List MuxMsg), []) :=
  (chunked_decode [(List.replicate 36 97, [1, 2]), (List.replicate 36 98, [3])] _
    (by decide) (by simp)).2

theorem parseStep_none_short (buffer : List Nat) (h : buffer.length < 14) :
    parseStep buffer = none := by
  unfold parseStep
  by_cases h0 : buffer.length = 0
  · rw [if_pos h0]
  · rw [if_neg h0, if_pos]
    rw [length_subarrayJS_header]
    omega

theorem parseStep_none_noparse (buffer : List Nat)
    (h : parseIntJS (buffer.take 14) = none) : parseStep buffer = none := by
  unfold parseStep
  by_cases h0 : buffer.length = 0
  · rw [if_pos h0]
  · rw [if_neg h0]
    by_cases h14 : (subarrayJS buffer 0 14).length ≠ 14
    · rw [if_pos h14]
    · rw [if_neg h14, subarrayJS_zero_fourteen, h]

theorem parseStep_none_incomplete (buffer : List Nat) (N : Nat)
    (hp : parseIntJS (buffer.take 14) = some ((N : Nat) : Int))
    (hlen : buffer.length < 14 + N) : parseStep buffer = none := by
  unfold parseStep
  by_cases h0 : buffer.length = 0
  · rw [if_pos h0]
  · rw [if_neg h0]
    by_cases h14 : (subarrayJS buffer 0 14).length ≠ 14
    · rw [if_pos h14]
    · rw [if_neg h14]
      have hlen14 : 14 ≤ buffer.length := by
        rw [not_not, length_subarrayJS_header] at h14
        omega
      rw [subarrayJS_zero_fourteen, hp]
      have hmlen : (subarrayJS buffer 14 ((N : Int) + 14)).length = buffer.length - 14 := by
        rw [subarrayJS_mid, List.length_drop, List.length_take]
        omega
      simp only [hmlen]
      rw [if_neg]
      intro hcontra
      have := Nat.cast_inj (R := Int) |>.mp hcontra
      omega

theorem parseStep_some_inv (buffer : List Nat) (ev : MuxMsg) (rest : List Nat)
    (h : parseStep buffer = some (ev, rest)) :
    ∃ N : Nat, parseIntJS (buffer.take 14) = some ((N : Nat) : Int) ∧
      14 + N ≤ buffer.length ∧ rest = buffer.drop (14 + N) ∧
      ev = (((buffer.drop 14).take N).take 36, ((buffer.drop 14).take N).drop 36) := by
  unfold parseStep at h
  by_cases h0 : buffer.length = 0
  · rw [if_pos h0] at h
    cases h
  · rw [if_neg h0] at h
    by_cases h14 : (subarrayJS buffer 0 14).length ≠ 14
    · rw [if_pos h14] at h
      cases h
    · rw [if_neg h14] at h
      have hlen14 : 14 ≤ buffer.length := by
        rw [not_not, length_subarrayJS_header] at h14
        omega
      cases hp : parseIntJS (subarrayJS buffer 0 14) with
      | none =>
        rw [hp] at h
        cases h
      | some L =>
        rw [hp] at h
        simp only [] at h
        by_cases hL : ((subarrayJS buffer 14 (L + 14)).length : Int) = L
        · simp only [hL, if_true] at h
          set N := (subarrayJS buffer 14 (L + 14)).length with hN
          have hLN : L = (N : Int) := hL.symm
          have hmsg : subarrayJS buffer 14 (L + 14) = (buffer.drop 14).take N := by
            rw [hLN, subarrayJS_mid, List.drop_take, Nat.add_sub_cancel]
          have hNlen : (((buffer.drop 14).take N)).length = N := by
            rw [← hmsg]
          have hNle : 14 + N ≤ buffer.length := by
            rw [List.length_take, List.length_drop] at hNlen
            omega
          have hpair := Option.some.inj h
          have hev := (congrArg Prod.fst hpair).symm
          have hrest := (congrArg Prod.snd hpair).symm
          simp only [] at hev hrest
          refine ⟨N, ?_, hNle, ?_, ?_⟩
          · rw [← subarrayJS_zero_fourteen, hp, hLN]
          · rw [hrest, hLN, subarrayJS_tail]
          · have h36e := subarrayJS_36_end ((buffer.drop 14).take N)
            rw [hNlen] at h36e
            rw [hev, hmsg, subarrayJS_zero_36, hLN, h36e]
        · rw [if_neg hL] at h
          cases h

/-- Claim C4: a single parsing step of the receive parser either emits one
complete frame, consuming exactly `14 + N` bytes where `N` is the parsed
decimal header, or emits nothing and leaves the buffer exactly as it was;
in particular a buffered prefix shorter than 14 bytes, a 14-byte header
that does not parse as a decimal number, and a complete header whose `N`
payload bytes have not all arrived each leave the buffer unchanged with no
frame dispatched. -/
theorem parse_step_safety (buffer : List Nat) :
    (∀ ev rest, parseStep buffer = some (ev, rest) →
        emitMessagesFromBuffer buffer =
          (ev :: (emitMessagesFromBuffer rest).1, (emitMessagesFromBuffer rest).2) ∧
        ∃ N : Nat, parseIntJS (buffer.take 14) = some ((N : Nat) : Int) ∧
          14 + N ≤ buffer.length ∧
          rest = buffer.drop (14 + N) ∧
          ev = (((buffer.drop 14).take N).take 36, ((buffer.drop 14).take N).drop 36)) ∧
    (parseStep buffer = none → emitMessagesFromBuffer buffer = ([], buffer)) ∧
    (buffer.length < 14 → emitMessagesFromBuffer buffer = ([], buffer)) ∧
    (parseIntJS (buffer.take 14) = none → emitMessagesFromBuffer buffer = ([], buffer)) ∧
    (∀ N : Nat, parseIntJS (buffer.take 14) = some ((N : Nat) : Int) →
        buffer.length < 14 + N → emitMessagesFromBuffer buffer = ([], buffer)) := by
  refine ⟨?_, ?_, ?_, ?_, ?_⟩
  · intro ev rest h
    exact ⟨emit_of_parseStep_some buffer ev rest h, parseStep_some_inv buffer ev rest h⟩
  · exact emit_of_parseStep_none buffer
  · intro h
    exact emit_of_parseStep_none buffer (parseStep_none_short buffer h)
  · intro h
    exact emit_of_parseStep_none buffer (parseStep_none_noparse buffer h)
  · intro N hp hlen
    exact emit_of_parseStep_none buffer (parseStep_none_incomplete buffer N hp hlen)

theorem parse_step_safety_witness :
    emitMessagesFromBuffer [48, 49] = ([], [48, 49]) ∧
    emitMessagesFromBuffer (List.replicate 14 120) =
      ([], List.replicate 14 120) ∧
    emitMessagesFromBuffer (List.replicate 13 48 ++ [53, 55]) =
      ([], List.replicate 13 48 ++ [53, 55]) :=
  ⟨(parse_step_safety [48, 49]).2.2.1 (by decide),
    (parse_step_safety (List.replicate 14 120)).2.2.2.1 (by decide),
    (parse_step_safety (List.replicate 13 48 ++ [53, 55])).2.2.2.2 5 (by decide) (by decide)⟩

theorem completesOf_cons_call (m : MuxMsg) (tr : List MuxEv) :
    completesOf (MuxEv.call m :: tr) = completesOf tr := by
  simp [completesOf, List.filter_cons]

theorem completesOf_cons_complete (tr : List MuxEv) :
    completesOf (MuxEv.complete :: tr) = completesOf tr + 1 := by
  simp [completesOf, List.filter_cons]

theorem muxCallsOf_cons_call (m : MuxMsg) (tr : List MuxEv) :
    muxCallsOf (MuxEv.call m :: tr) = m :: muxCallsOf tr := by
  simp [muxCallsOf, List.filterMap_cons]

theorem muxCallsOf_cons_complete (tr : List MuxEv) :
    muxCallsOf (MuxEv.complete :: tr) = muxCallsOf tr := by
  simp [muxCallsOf, List.filterMap_cons]

/-- Inductive invariant of the write machine: an idle socket has an empty
queue, the number of socket writes equals completions plus the in-flight
bit, and the wire followed by the queue lists exactly the called messages
in order. -/
theorem mux_run_inv :
    ∀ tr : List MuxEv, ∀ s : MuxState, ∀ d : Nat,
      MuxTraceOK s tr →
      (s.sending = false → s.messageQueue = []) →
      s.wire.length = d + (if s.sending then 1 else 0) →
      ((muxRun s tr).sending = false → (muxRun s tr).messageQueue = []) ∧
      (muxRun s tr).wire.length =
        (d + completesOf tr) + (if (muxRun s tr).sending then 1 else 0) ∧
      (muxRun s tr).wire ++ (muxRun s tr).messageQueue =
        s.wire ++ s.messageQueue ++ muxCallsOf tr := by
  intro tr
  induction tr with
  | nil =>
    intro s d _ hq hw
    refine ⟨hq, ?_, by simp [muxRun, muxCallsOf]⟩
    simpa [muxRun, completesOf] using hw
  | cons e tr ih =>
    intro s d htr hq hw
    cases htr with
    | call _ m _ htr' =>
      have hrun : muxRun s (MuxEv.call m :: tr) = muxRun (multiplexWriteCall s m) tr := by
        simp [muxRun, muxStep]
      rw [hrun, completesOf_cons_call, muxCallsOf_cons_call]
      by_cases hs : s.sending = true
      · have hstep : multiplexWriteCall s m =
            { s with messageQueue := s.messageQueue ++ [m] } := by
          simp [multiplexWriteCall, hs]
        obtain ⟨h1, h2, h3⟩ := ih (multiplexWriteCall s m) d htr'
          (by rw [hstep]; intro hfalse; simp at hfalse; rw [hs] at hfalse; cases hfalse)
          (by rw [hstep]; simpa [hs] using hw)
        refine ⟨h1, h2, ?_⟩
        rw [h3, hstep]
        simp [List.append_assoc]
      · have hs' : s.sending = false := by simpa using hs
        have hqnil : s.messageQueue = [] := hq hs'
        have hstep : multiplexWriteCall s m =
            { s with sending := true, wire := s.wire ++ [m] } := by
          simp [multiplexWriteCall, hs']
        obtain ⟨h1, h2, h3⟩ := ih (multiplexWriteCall s m) d htr'
          (by rw [hstep]; intro hfalse; simp at hfalse)
          (by rw [hstep]; simp [hs'] at hw; simp [hw])
        refine ⟨h1, h2, ?_⟩
        rw [h3, hstep]
        simp [hqnil]
    | complete _ _ hsend htr' =>
      have hrun : muxRun s (MuxEv.complete :: tr) = muxRun (writeCompleteStep s) tr := by
        simp [muxRun, muxStep]
      rw [hrun, completesOf_cons_complete, muxCallsOf_cons_complete]
      cases hmq : s.messageQueue with
      | nil =>
        have hstep : writeCompleteStep s = { s with sending := false } := by
          simp [writeCompleteStep, hmq]
        obtain ⟨h1, h2, h3⟩ := ih (writeCompleteStep s) (d + 1) htr'
          (by rw [hstep]; intro _; simpa using hmq)
          (by rw [hstep]; simpa [hsend] using hw)
        refine ⟨h1, by omega, ?_⟩
        rw [h3, hstep]
        simp [hmq]
      | cons m rest =>
        have hstep : writeCompleteStep s =
            { s with sending := true, messageQueue := rest, wire := s.wire ++ [m] } := by
          simp [writeCompleteStep, hmq]
        obtain ⟨h1, h2, h3⟩ := ih (writeCompleteStep s) (d + 1) htr'
          (by rw [hstep]; intro hfalse; simp at hfalse)
          (by rw [hstep]; simp [hsend] at hw; simp [hw])
        refine ⟨h1, by omega, ?_⟩
        rw [h3, hstep]
        simp [hmq]

/-- Claim C3: over any well-formed sequence of `multiplexWrite(id, data)`
calls interleaved with write-completion callbacks, at most one socket
write is in flight at a time (a call made while `sending` only queues and
writes nothing; the number of writes equals completions plus the single
in-flight bit), each completion drains at most one queued frame, an idle
socket has an empty queue, the messages reach the socket whole and in
exactly call order (`wire ++ messageQueue` equals the call sequence), and
the receiver decodes the wire bytes to those messages in the same order
with the same ids and bytes. -/
theorem multiplexWrite_ordering (tr : List MuxEv) (htr : MuxTraceOK muxInit tr)
    (hv : ∀ m ∈ muxCallsOf tr, ValidMsg m) :
    (muxRun muxInit tr).wire ++ (muxRun muxInit tr).messageQueue = muxCallsOf tr ∧
    ((muxRun muxInit tr).sending = false → (muxRun muxInit tr).messageQueue = []) ∧
    (muxRun muxInit tr).wire.length =
      completesOf tr + (if (muxRun muxInit tr).sending then 1 else 0) ∧
    (∀ s : MuxState, ∀ m : MuxMsg, s.sending = true →
        (multiplexWriteCall s m).wire = s.wire) ∧
    (∀ s : MuxState,
        (writeCompleteStep s).wire.length ≤ s.wire.length + 1 ∧
        s.messageQueue.length ≤ (writeCompleteStep s).messageQueue.length + 1) ∧
    emitMessagesFromBuffer (encodeStream (muxRun muxInit tr).wire) =
      ((muxRun muxInit tr).wire, []) := by
  obtain ⟨h1, h2, h3⟩ := mux_run_inv tr muxInit 0 htr (fun _ => rfl) rfl
  have horder : (muxRun muxInit tr).wire ++ (muxRun muxInit tr).messageQueue =
      muxCallsOf tr := by
    simpa [muxInit] using h3
  refine ⟨horder, h1, by simpa using h2, ?_, ?_, ?_⟩
  · intro s m hs
    simp [multiplexWriteCall, hs]
  · intro s
    cases hmq : s.messageQueue <;> simp [writeCompleteStep, hmq]
  · apply decode_encodeStream
    intro m hm
    apply hv
    rw [← horder]
    exact List.mem_append_left _ hm

theorem multiplexWrite_ordering_witness :
    (muxRun muxInit [MuxEv.call (List.replicate 36 97, [1]),
        MuxEv.call (List.replicate 36 98, [2, 3]), MuxEv.complete,
        MuxEv.complete]).wire ++
      (muxRun muxInit [MuxEv.call (List.replicate 36 97, [1]),
        MuxEv.call (List.replicate 36 98, [2, 3]), MuxEv.complete,
        MuxEv.complete]).messageQueue =
      muxCallsOf [MuxEv.call (List.replicate 36 97, [1]),
        MuxEv.call (List.replicate 36 98, [2, 3]), MuxEv.complete,
        MuxEv.complete] :=
  (multiplexWrite_ordering _
    (by
      apply MuxTraceOK.call
      apply MuxTraceOK.call
      apply MuxTraceOK.complete
      · decide
      apply MuxTraceOK.complete
      · decide
      exact MuxTraceOK.nil _)
    (by decide)).1

theorem chanRecvs_cons_recv (m : List Nat) (tr : List ChanEv) :
    chanRecvs (ChanEv.recv m :: tr) = m :: chanRecvs tr := by
  simp [chanRecvs, List.filterMap_cons]

theorem chanRecvs_cons_ready (tr : List ChanEv) :
    chanRecvs (ChanEv.readyEv :: tr) = chanRecvs tr := by
  simp [chanRecvs, List.filterMap_cons]

/-- Inductive invariant of the per-channel delivery machine: the local
writes followed by the pending queue list exactly the received payloads in
arrival order, a ready socket has an empty pending queue, and dialing is
monotone and forced by any reception. -/
theorem chan_run_inv :
    ∀ tr : List ChanEv, ∀ s : ChanState,
      ChanTraceOK s tr →
      (s.ready = true → s.pending = []) →
      (chanRun s tr).written ++ (chanRun s tr).pending =
        s.written ++ s.pending ++ chanRecvs tr ∧
      ((chanRun s tr).ready = true → (chanRun s tr).pending = []) ∧
      (s.dialed = true → (chanRun s tr).dialed = true) ∧
      (chanRecvs tr ≠ [] → (chanRun s tr).dialed = true) := by
  intro tr
  induction tr with
  | nil =>
    intro s _ hrq
    exact ⟨by simp [chanRun, chanRecvs], hrq, fun h => by simpa [chanRun] using h,
      fun h => absurd rfl h⟩
  | cons e tr ih =>
    intro s htr hrq
    cases htr with
    | recv _ m _ htr' =>
      have hrun : chanRun s (ChanEv.recv m :: tr) = chanRun (recvStep s m) tr := by
        simp [chanRun, chanStep]
      rw [hrun, chanRecvs_cons_recv]
      have hdial : (recvStep s m).dialed = true := by
        unfold recvStep
        by_cases hd : s.dialed <;> by_cases hr : s.ready <;> simp [hd, hr]
      have hready : (recvStep s m).ready = s.ready := by
        unfold recvStep
        by_cases hd : s.dialed <;> by_cases hr : s.ready <;> simp [hd, hr]
      have hstate : (recvStep s m).written ++ (recvStep s m).pending =
          s.written ++ s.pending ++ [m] := by
        unfold recvStep
        by_cases hd : s.dialed <;> by_cases hr : s.ready <;>
          simp [hd, hr, hrq, List.append_assoc]
      have hrq' : (recvStep s m).ready = true → (recvStep s m).pending = [] := by
        rw [hready]
        intro hr
        unfold recvStep
        by_cases hd : s.dialed <;> simp [hd, hr, hrq hr]
      obtain ⟨h1, h2, h3, h4⟩ := ih (recvStep s m) htr' hrq'
      refine ⟨?_, h2, fun _ => h3 hdial, fun _ => h3 hdial⟩
      rw [h1, hstate]
      simp [List.append_assoc]
    | ready _ _ hd hr htr' =>
      have hrun : chanRun s (ChanEv.readyEv :: tr) = chanRun (readyStep s) tr := by
        simp [chanRun, chanStep]
      rw [hrun, chanRecvs_cons_ready]
      have hrq' : (readyStep s).ready = true → (readyStep s).pending = [] := by
        intro _
        simp [readyStep]
      obtain ⟨h1, h2, h3, h4⟩ := ih (readyStep s) htr' hrq'
      refine ⟨?_, h2, fun hsd => h3 (by simpa [readyStep] using hsd), h4⟩
      rw [h1]
      simp [readyStep, List.append_assoc]

/-- Claim C5: per channel, for every well-formed sequence of
`multiplex-data` receptions and the at-most-one `ready` event of the
dialed local socket, the bytes written to the local socket followed by the
pending queue equal the received payloads in arrival order (each payload
is written exactly once, in receive order: queued while the socket is not
yet writable, drained in FIFO order by the `ready` handler which then
clears the queue, and written directly afterwards); once `ready` has
fired the pending queue is empty; and any reception on an absent channel
id dials the local socket and stores it under that id. -/
theorem channel_delivery (tr : List ChanEv) (htr : ChanTraceOK chanInit tr) :
    (chanRun chanInit tr).written ++ (chanRun chanInit tr).pending = chanRecvs tr ∧
    ((chanRun chanInit tr).ready = true → (chanRun chanInit tr).pending = []) ∧
    (chanRecvs tr ≠ [] → (chanRun chanInit tr).dialed = true) := by
  obtain ⟨h1, h2, _, h4⟩ := chan_run_inv tr chanInit htr (fun h => nomatch h)
  exact ⟨by simpa [chanInit] using h1, h2, h4⟩

theorem channel_delivery_witness :
    (chanRun chanInit [ChanEv.recv [1], ChanEv.recv [2], ChanEv.readyEv,
        ChanEv.recv [3]]).written ++
      (chanRun chanInit [ChanEv.recv [1], ChanEv.recv [2], ChanEv.readyEv,
        ChanEv.recv [3]]).pending =
      chanRecvs [ChanEv.recv [1], ChanEv.recv [2], ChanEv.readyEv,
        ChanEv.recv [3]] :=
  (channel_delivery _
    (by
      apply ChanTraceOK.recv
      apply ChanTraceOK.recv
      apply ChanTraceOK.ready
      · decide
      · decide
      apply ChanTraceOK.recv
      exact ChanTraceOK.nil _)).1

theorem addrEquals_comm (x y : Address) :
    addrEquals x (some y) = addrEquals y (some x) := by
  unfold addrEquals
  rw [Bool.eq_iff_iff]
  simp only [Bool.and_eq_true, beq_iff_eq]
  constructor <;> rintro ⟨h1, h2⟩ <;> exact ⟨h1.symm, h2.symm⟩

theorem addrEquals_self (x : Address) : addrEquals x (some x) = true := by
  simp [addrEquals]

theorem pairDistinctOk_add (p : ClientPair) (d : OriginDescriptor)
    (h : pairDistinctOk p = true) : pairDistinctOk (addPair p d).1 = true := by
  unfold addPair
  split_ifs with hval hdup
  · exact h
  · exact h
  · have hdup' : (addrEquals d.pub (Option.map (fun a => a.pub) p.clientAOriginDescriptor) ||
        addrEquals d.pub (Option.map (fun b => b.pub) p.clientBOriginDescriptor)) = false := by
      revert hdup
      cases addrEquals d.pub (Option.map (fun a => a.pub) p.clientAOriginDescriptor) ||
        addrEquals d.pub (Option.map (fun b => b.pub) p.clientBOriginDescriptor) <;> simp
    obtain ⟨hda, hdb⟩ := Bool.or_eq_false_iff.mp hdup'
    cases hA : p.clientAOriginDescriptor with
    | none =>
      cases hB : p.clientBOriginDescriptor with
      | none => simp [pairDistinctOk, hA, hB]
      | some b =>
        rw [hB] at hdb
        simp only [Option.map_some'] at hdb
        simp [pairDistinctOk, hA, hB, hdb]
    | some a =>
      rw [hA] at hda
      simp only [Option.map_some'] at hda
      cases hB : p.clientBOriginDescriptor with
      | none =>
        have hcomm : addrEquals a.pub (some d.pub) = false := by
          rw [addrEquals_comm]
          exact hda
        simp [pairDistinctOk, hA, hB, hcomm]
      | some b =>
        exact h

theorem pairDistinctOk_remove (p : ClientPair) (x : Address)
    (h : pairDistinctOk p = true) : pairDistinctOk (removePair p x) = true := by
  unfold removePair
  split_ifs with h1 h2
  · cases hB : p.clientBOriginDescriptor <;> simp [pairDistinctOk, hB]
  · simp [pairDistinctOk]
  · exact h

/-- Claim C6: in every state reachable from the empty pair by any sequence
of `add` (including adds that throw, which leave the pair unchanged) and
`remove` operations, each slot holds at most one descriptor (they are
optional values) and, whenever both slots are filled, the two descriptors
have distinct public endpoints. -/
theorem clientPair_invariant :
    ∀ ops : List PairOp, pairDistinctOk (runPairOps ops) = true := by
  have haux : ∀ ops : List PairOp, ∀ p : ClientPair, pairDistinctOk p = true →
      pairDistinctOk (ops.foldl
        (fun p op =>
          match op with
          | PairOp.add d => (addPair p d).1
          | PairOp.remove a => removePair p a) p) = true := by
    intro ops
    induction ops with
    | nil => intro p h; exact h
    | cons op rest ih =>
      intro p h
      cases op with
      | add d => exact ih _ (pairDistinctOk_add p d h)
      | remove a => exact ih _ (pairDistinctOk_remove p a h)
  intro ops
  exact haux ops emptyPair rfl

theorem invalidFields_iff (d : OriginDescriptor) :
    (d.pub.host == "" || d.pub.port == 0 || d.priv.host == "" ||
      d.priv.port == 0) = true ↔
      (d.pub.host = "" ∨ d.pub.port = 0 ∨ d.priv.host = "" ∨ d.priv.port = 0) := by
  simp [beq_iff_eq, or_assoc]

/-- Claim C7: `ClientPair.add` raises an error exactly when some of the
four endpoint fields of the new descriptor is empty (falsy), or both
slots are filled and the new descriptor's public endpoint differs from
both occupants; and whenever it raises, both slots are left exactly as
they were. -/
theorem addPair_error_iff (p : ClientPair) (d : OriginDescriptor) :
    ((addPair p d).2.isSome ↔
      (d.pub.host = "" ∨ d.pub.port = 0 ∨ d.priv.host = "" ∨ d.priv.port = 0) ∨
      (∃ a b, p.clientAOriginDescriptor = some a ∧
        p.clientBOriginDescriptor = some b ∧
        addrEquals d.pub (some a.pub) = false ∧
        addrEquals d.pub (some b.pub) = false)) ∧
    ((addPair p d).2.isSome → (addPair p d).1 = p) := by
  unfold addPair
  split_ifs with hval hdup
  · constructor
    · simp only [Option.isSome_some, true_iff]
      exact Or.inl ((invalidFields_iff d).mp hval)
    · intro _
      rfl
  · have hval' : ¬ (d.pub.host = "" ∨ d.pub.port = 0 ∨ d.priv.host = "" ∨
        d.priv.port = 0) := fun hc => hval ((invalidFields_iff d).mpr hc)
    constructor
    · simp only [Option.isSome_none, Bool.false_eq_true, false_iff]
      intro hc
      rcases hc with hc | ⟨a, b, hA, hB, hda, hdb⟩
      · exact hval' hc
      · rw [hA, hB] at hdup
        simp only [Option.map_some'] at hdup
        rw [hda, hdb] at hdup
        simp at hdup
    · intro hc
      simp at hc
  · have hval' : ¬ (d.pub.host = "" ∨ d.pub.port = 0 ∨ d.priv.host = "" ∨
        d.priv.port = 0) := fun hc => hval ((invalidFields_iff d).mpr hc)
    have hdup' : (addrEquals d.pub (Option.map (fun a => a.pub) p.clientAOriginDescriptor) ||
        addrEquals d.pub (Option.map (fun b => b.pub) p.clientBOriginDescriptor)) = false := by
      revert hdup
      cases addrEquals d.pub (Option.map (fun a => a.pub) p.clientAOriginDescriptor) ||
        addrEquals d.pub (Option.map (fun b => b.pub) p.clientBOriginDescriptor) <;> simp
    obtain ⟨hda, hdb⟩ := Bool.or_eq_false_iff.mp hdup'
    cases hA : p.clientAOriginDescriptor with
    | none =>
      constructor
      · simp only [Option.isSome_none, Bool.false_eq_true, false_iff]
        intro hc
        rcases hc with hc | ⟨a, b, hA', hB', hda', hdb'⟩
        · exact hval' hc
        · exact Option.noConfusion hA'
      · intro hc
        simp at hc
    | some a =>
      cases hB : p.clientBOriginDescriptor with
      | none =>
        constructor
        · simp only [Option.isSome_none, Bool.false_eq_true, false_iff]
          intro hc
          rcases hc with hc | ⟨a', b', hA', hB', hda', hdb'⟩
          · exact hval' hc
          · exact Option.noConfusion hB'
        · intro hc
          simp at hc
      | some b =>
        constructor
        · simp only [Option.isSome_some, true_iff]
          rw [hA] at hda
          rw [hB] at hdb
          simp only [Option.map_some'] at hda hdb
          exact Or.inr ⟨a, b, rfl, rfl, hda, hdb⟩
        · intro _
          rfl

theorem addPair_error_iff_witness :
    (addPair
      ⟨some ⟨1, ⟨"1.1.1.1", 1000⟩, ⟨"10.0.0.1", 1⟩⟩,
        some ⟨2, ⟨"2.2.2.2", 2000⟩, ⟨"10.0.0.2", 2⟩⟩⟩
      ⟨3, ⟨"3.3.3.3", 3000⟩, ⟨"10.0.0.3", 3⟩⟩).1 =
      ⟨some ⟨1, ⟨"1.1.1.1", 1000⟩, ⟨"10.0.0.1", 1⟩⟩,
        some ⟨2, ⟨"2.2.2.2", 2000⟩, ⟨"10.0.0.2", 2⟩⟩⟩ :=
  (addPair_error_iff _ _).2 (by decide)

/-- Claim C8 counterexample: right after `clear()` on a full pair, the
slots are NOT null — `clear()` only calls `socket.end()` on the two
control sockets and assigns nothing to the slots. -/
theorem clearPair_counterexample :
    ¬ ((clearPair
        ⟨some ⟨1, ⟨"1.1.1.1", 1000⟩, ⟨"10.0.0.1", 1⟩⟩,
          some ⟨2, ⟨"2.2.2.2", 2000⟩, ⟨"10.0.0.2", 2⟩⟩⟩).1.clientAOriginDescriptor = none ∧
      (clearPair
        ⟨some ⟨1, ⟨"1.1.1.1", 1000⟩, ⟨"10.0.0.1", 1⟩⟩,
          some ⟨2, ⟨"2.2.2.2", 2000⟩, ⟨"10.0.0.2", 2⟩⟩⟩).1.clientBOriginDescriptor = none) := by
  decide

/-- Claim C8 (amended): `clear()` ends both present control sockets and
leaves both slots exactly as they were; the slots become empty when each
ended socket's `end` event triggers `remove` with its public endpoint, at
which point both slots are null. -/
theorem clearPair_ends_sockets (p : ClientPair) (a b : OriginDescriptor)
    (ha : p.clientAOriginDescriptor = some a)
    (hb : p.clientBOriginDescriptor = some b) :
    (clearPair p).1 = p ∧
    (clearPair p).2 = [a.socket, b.socket] ∧
    removePair (removePair (clearPair p).1 a.pub) b.pub = emptyPair := by
  obtain ⟨A, B⟩ := p
  simp only [] at ha hb
  subst ha
  subst hb
  refine ⟨rfl, by simp [clearPair], ?_⟩
  simp [clearPair, removePair, matchesSlotA, matchesSlotB, addrEquals_self, emptyPair]

theorem clearPair_ends_sockets_witness :
    (clearPair
      ⟨some ⟨1, ⟨"1.1.1.1", 1000⟩, ⟨"10.0.0.1", 1⟩⟩,
        some ⟨2, ⟨"2.2.2.2", 2000⟩, ⟨"10.0.0.2", 2⟩⟩⟩).1 =
      ⟨some ⟨1, ⟨"1.1.1.1", 1000⟩, ⟨"10.0.0.1", 1⟩⟩,
        some ⟨2, ⟨"2.2.2.2", 2000⟩, ⟨"10.0.0.2", 2⟩⟩⟩ ∧
    (clearPair
      ⟨some ⟨1, ⟨"1.1.1.1", 1000⟩, ⟨"10.0.0.1", 1⟩⟩,
        some ⟨2, ⟨"2.2.2.2", 2000⟩, ⟨"10.0.0.2", 2⟩⟩⟩).2 = [1, 2] ∧
    removePair (removePair (clearPair
      ⟨some ⟨1, ⟨"1.1.1.1", 1000⟩, ⟨"10.0.0.1", 1⟩⟩,
        some ⟨2, ⟨"2.2.2.2", 2000⟩, ⟨"10.0.0.2", 2⟩⟩⟩).1
      ⟨"1.1.1.1", 1000⟩) ⟨"2.2.2.2", 2000⟩ = emptyPair :=
  clearPair_ends_sockets _ _ _ rfl rfl

theorem runRetries_eq (limit n : Nat) :
    runRetries limit n = ⟨min n limit, min n limit⟩ := by
  induction n with
  | zero => simp [runRetries]
  | succ k ih =>
    unfold runRetries
    rw [ih]
    unfold tryToReconnectOnce
    by_cases h : limit ≤ min k limit
    · rw [if_pos h]
      have : min k limit = limit := by omega
      rw [this]
      have : min (k + 1) limit = limit := by omega
      rw [this]
    · rw [if_neg h]
      have h1 : min k limit = k := by omega
      have h2 : min (k + 1) limit = k + 1 := by omega
      rw [h1, h2]

/-- Claim C9: the reconnect function built by
`limitExecutionCount(throttle(connect, 1000), timeout)` invokes the
underlying connect exactly `min n timeout` times over `n` calls — hence at
most `timeout` times (default 60); once the budget is exhausted every
further call throws instead of calling connect, and the error handler
then destroys the socket and rejects the attempt terminally, leaving the
counter untouched. -/
theorem retry_budget (limit n : Nat) :
    (runRetries limit n).connects = min n limit ∧
    (runRetries limit n).connects ≤ limit ∧
    (limit ≤ n →
      onPeerSocketError false limit (runRetries limit n) =
        (runRetries limit n, ErrorOutcome.destroyedRejected)) ∧
    timeoutDefault = 60 := by
  rw [runRetries_eq]
  refine ⟨rfl, by simp, ?_, rfl⟩
  intro h
  have hm : min n limit = limit := by omega
  unfold onPeerSocketError tryToReconnectOnce
  rw [if_neg (by simp)]
  simp only [hm]
  rw [if_pos (le_refl _)]
  simp

theorem retry_budget_witness :
    onPeerSocketError false 60 (runRetries 60 60) =
      (runRetries 60 60, ErrorOutcome.destroyedRejected) :=
  (retry_budget 60 60).2.2.1 (by decide)

/-!
Refinement of the linked-list `Queue` to the abstract FIFO list.
-/

theorem nchain_shape {α : Type} {q : LinkedQueue α} {s : Nat} {addrs : List Nat}
    (h : NChain q s addrs) : ∃ t, addrs = s :: t := by
  cases h with
  | last a ha => exact ⟨[], rfl⟩
  | cons a b rest hab hrest => exact ⟨rest, rfl⟩

theorem nchain_last_none {α : Type} {q : LinkedQueue α} :
    ∀ {s : Nat} {addrs : List Nat}, NChain q s addrs →
      ∀ {e : Nat}, addrs.getLast? = some e → q.nxt e = none := by
  intro s addrs h
  induction h with
  | last a ha =>
    intro e he
    simp only [List.getLast?_singleton, Option.some.injEq] at he
    rw [← he]
    exact ha
  | cons a b rest hab hrest ih =>
    intro e he
    obtain ⟨t, ht⟩ := nchain_shape hrest
    subst ht
    rw [List.getLast?_cons_cons] at he
    exact ih he

theorem nchain_congr {α : Type} {q q' : LinkedQueue α} :
    ∀ {s : Nat} {addrs : List Nat}, NChain q s addrs →
      (∀ a ∈ addrs, q'.nxt a = q.nxt a) → NChain q' s addrs := by
  intro s addrs h
  induction h with
  | last a ha =>
    intro hmod
    exact NChain.last a (by rw [hmod a (by simp)]; exact ha)
  | cons a b rest hab hrest ih =>
    intro hmod
    exact NChain.cons a b rest (by rw [hmod a (by simp)]; exact hab)
      (ih (fun y hy => hmod y (by simp [hy])))

theorem nchain_extend {α : Type} {q q' : LinkedQueue α} :
    ∀ {s : Nat} {addrs : List Nat}, NChain q s addrs →
      ∀ {e x : Nat}, addrs.getLast? = some e →
        (∀ a ∈ addrs, a ≠ e → q'.nxt a = q.nxt a) →
        q'.nxt e = some x → q'.nxt x = none →
        NChain q' s (addrs ++ [x]) := by
  intro s addrs h
  induction h with
  | last a ha =>
    intro e x he hmod hl hx
    have hae : a = e := by
      simpa only [List.getLast?_singleton, Option.some.injEq] using he
    subst hae
    exact NChain.cons a x [x] hl (NChain.last x hx)
  | cons a b rest hab hrest ih =>
    intro e x he hmod hl hx
    obtain ⟨t, ht⟩ := nchain_shape hrest
    subst ht
    rw [List.getLast?_cons_cons] at he
    have hen : q.nxt e = none := nchain_last_none hrest he
    have hane : a ≠ e := by
      intro hc
      rw [hc, hen] at hab
      cases hab
    have h1 : q'.nxt a = some b := by
      rw [hmod a (by simp) hane]
      exact hab
    have h2 := ih he (fun y hy hne => hmod y (by simp [hy]) hne) hl hx
    rw [List.cons_append]
    exact NChain.cons a b ((b :: t) ++ [x]) h1 h2

theorem qrepr_push {α : Type} (q : LinkedQueue α) (l : List α) (v : α)
    (h : QRepr q l) : QRepr (q.push v) (l ++ [v]) := by
  unfold QRepr at h
  cases hs : q.start with
  | none =>
    rw [hs] at h
    obtain ⟨hqe, hl⟩ := h
    subst hl
    unfold LinkedQueue.push
    rw [hqe]
    refine ⟨[q.fresh], NChain.last q.fresh (by simp), by simp, by simp, by simp⟩
  | some s =>
    rw [hs] at h
    obtain ⟨addrs, hch, hqe, hbnd, hval⟩ := h
    obtain ⟨t, ht⟩ := nchain_shape hch
    have hne : addrs ≠ [] := by rw [ht]; simp
    obtain ⟨e, he⟩ := Option.isSome_iff_exists.mp (List.getLast?_isSome.mpr hne)
    rw [he] at hqe
    have hemem : e ∈ addrs := List.mem_of_getLast?_eq_some he
    have helt : e < q.fresh := hbnd e hemem
    unfold LinkedQueue.push
    rw [hqe]
    unfold QRepr
    simp only [hs]
    refine ⟨addrs ++ [q.fresh], ?_, ?_, ?_, ?_⟩
    · refine nchain_extend hch he ?_ ?_ ?_
      · intro a ha hane
        have halt : a < q.fresh := hbnd a ha
        simp only []
        rw [if_neg hane, if_neg (by omega)]
      · simp
      · have hfe : q.fresh ≠ e := by omega
        simp [hfe]
    · rw [List.getLast?_concat]
    · intro a ha
      rcases List.mem_append.mp ha with ha | ha
      · have := hbnd a ha
        show a < q.fresh + 1
        omega
      · simp only [List.mem_singleton] at ha
        subst ha
        simp
    · rw [List.map_append, List.map_append]
      congr 1
      · rw [← hval]
        apply List.map_congr_left
        intro a ha
        have halt : a < q.fresh := hbnd a ha
        show (if a = q.fresh then some v else q.val a) = q.val a
        rw [if_neg (by omega)]
      · simp

theorem qrepr_pop_nil {α : Type} (q : LinkedQueue α) (h : QRepr q []) :
    q.pop = (none, q) := by
  unfold QRepr at h
  cases hs : q.start with
  | none =>
    unfold LinkedQueue.pop
    rw [hs]
  | some s =>
    rw [hs] at h
    obtain ⟨addrs, hch, _, _, hval⟩ := h
    obtain ⟨t, ht⟩ := nchain_shape hch
    rw [ht] at hval
    simp at hval

theorem qrepr_pop_cons {α : Type} (q : LinkedQueue α) (v : α) (l : List α)
    (h : QRepr q (v :: l)) :
    q.pop.1 = some v ∧ QRepr q.pop.2 l := by
  unfold QRepr at h
  cases hs : q.start with
  | none =>
    rw [hs] at h
    exact absurd h.2 (by simp)
  | some s =>
    rw [hs] at h
    obtain ⟨addrs, hch, hqe, hbnd, hval⟩ := h
    obtain ⟨t, ht⟩ := nchain_shape hch
    subst ht
    rw [List.map_cons, List.map_cons] at hval
    have hvs : q.val s = some v := (List.cons_eq_cons.mp hval).1
    have hvt : t.map q.val = l.map some := (List.cons_eq_cons.mp hval).2
    unfold LinkedQueue.pop
    rw [hs]
    cases hch with
    | last _ hsnone =>
      simp only [hsnone]
      refine ⟨hvs, ?_⟩
      have hl : l = [] := by simpa using hvt.symm
      subst hl
      exact ⟨rfl, rfl⟩
    | cons _ b rest hsb hrest =>
      simp only [hsb]
      refine ⟨hvs, ?_⟩
      refine ⟨t, ?_, ?_, ?_, ?_⟩
      · exact nchain_congr hrest (fun a _ => rfl)
      · obtain ⟨t', ht'⟩ := nchain_shape hrest
        show q.qend = t.getLast?
        rw [hqe, ht', List.getLast?_cons_cons]
      · intro a ha
        apply hbnd
        rw [List.mem_cons]
        exact Or.inr ha
      · exact hvt

/-- Claim C10: starting from the empty queue, any sequence of `push` and
`pop` operations on the heap-modelled linked-list `Queue` yields exactly
the pop results of the abstract FIFO list (pop returns the
least-recently-pushed value not yet popped, or null when none remains);
in particular the end pointer reset on emptying means a push after
popping the last element is returned by the next pop. -/
theorem queue_fifo_correct :
    ∀ (α : Type) (ops : List (QOp α)),
      (runLinked (LinkedQueue.empty α) ops).2 = (runListQ ([] : List α) ops).2 := by
  have haux : ∀ (α : Type) (ops : List (QOp α)) (q : LinkedQueue α) (l : List α),
      QRepr q l →
      (runLinked q ops).2 = (runListQ l ops).2 ∧
      QRepr (runLinked q ops).1 (runListQ l ops).1 := by
    intro α ops
    induction ops with
    | nil => intro q l h; exact ⟨rfl, h⟩
    | cons op rest ih =>
      intro q l h
      cases op with
      | push v =>
        simp only [runLinked, runListQ]
        exact ih (q.push v) (l ++ [v]) (qrepr_push q l v h)
      | pop =>
        cases l with
        | nil =>
          have hp := qrepr_pop_nil q h
          simp only [runLinked, runListQ]
          rw [hp]
          obtain ⟨h1, h2⟩ := ih q [] h
          exact ⟨by rw [h1], h2⟩
        | cons v t =>
          obtain ⟨hp1, hp2⟩ := qrepr_pop_cons q v t h
          simp only [runLinked, runListQ]
          obtain ⟨h1, h2⟩ := ih q.pop.2 t hp2
          exact ⟨by rw [h1, hp1], h2⟩
  intro α ops
  exact (haux α ops (LinkedQueue.empty α) [] ⟨rfl, rfl⟩).1
